import Mathlib

/-!
Verification development for the `remove-async-await` crate: a shallow
embedding of the crate's AST fold (over the syn node kinds it touches),
its dispatch wrapper, and its literal string-substitution fallback.
-/

/-- A lexical token rendered to text: a list of characters. -/
abbrev Atom := List Char

mutual
/-- Expressions: the syn `Expr` variants relevant to the crate's `Fold` impl.
`awaitE`/`asyncE` are the rewritten kinds; the rest fall to the `_` arm. -/
inductive Expr where
  | awaitE (attrs : List String) (base : Expr)
  | asyncE (attrs : List String) (capture : Bool) (body : Block)
  | blockE (attrs : List String) (label : Option String) (body : Block)
  | call (func : Expr) (args : ExprList)
  | methodCall (recv : Expr) (meth : String) (args : ExprList)
  | macE (name : String) (toks : List Atom)
  | identE (name : String)
  | lit (value : String)
deriving DecidableEq

inductive ExprList where
  | nil
  | cons (head : Expr) (tail : ExprList)
deriving DecidableEq

inductive Stmt where
  | letStmt (name : String) (init : Expr)
  | exprStmt (e : Expr)
  | semi (e : Expr)
deriving DecidableEq

inductive Block where
  | mk (stmts : StmtList)
deriving DecidableEq

inductive StmtList where
  | nil
  | cons (head : Stmt) (tail : StmtList)
deriving DecidableEq
end

mutual
/-- `RemoveAsyncAwait::fold_expr`.  `Expr::Await(e) => self.fold_expr(*e.base)`;
`Expr::Async(e) => self.fold_expr(Expr::Block { attrs: e.attrs, label: None,
block: e.block })` — the re-entrant call lands in the `_` arm, whose
`fold::fold_expr` on an `ExprBlock` keeps attrs and label and folds the block,
so that case is written here with that one step unfolded; all other variants go
through syn's default fold, which reconstructs the variant with folded
children (macro argument tokens are opaque to it). -/
def foldExpr : Expr → Expr
  | .awaitE _attrs base => foldExpr base
  | .asyncE attrs _capture body => .blockE attrs none (foldBlock body)
  | .blockE attrs label body => .blockE attrs label (foldBlock body)
  | .call f args => .call (foldExpr f) (foldExprList args)
  | .methodCall r m args => .methodCall (foldExpr r) m (foldExprList args)
  | .macE n toks => .macE n toks
  | .identE n => .identE n
  | .lit v => .lit v

def foldExprList : ExprList → ExprList
  | .nil => .nil
  | .cons e es => .cons (foldExpr e) (foldExprList es)

def foldStmt : Stmt → Stmt
  | .letStmt n init => .letStmt n (foldExpr init)
  | .exprStmt e => .exprStmt (foldExpr e)
  | .semi e => .semi (foldExpr e)

def foldBlock : Block → Block
  | .mk ss => .mk (foldStmtList ss)

def foldStmtList : StmtList → StmtList
  | .nil => .nil
  | .cons s ss => .cons (foldStmt s) (foldStmtList ss)
end

/-- syn `Signature`, restricted to the fields the crate reads or writes:
`asyncness` is the only one touched; the rest are carried through. -/
structure Signature where
  asyncness : Bool
  name : String
  inputs : List String
  output : Option String
deriving DecidableEq

/-- syn `ItemFn`: attributes, visibility, signature, body block. -/
structure ItemFn where
  attrs : List String
  vis : Option String
  sig : Signature
  body : Block
deriving DecidableEq

/-- syn `TraitItemMethod`: attributes, signature, optional default body. -/
structure TraitItemMethod where
  attrs : List String
  sig : Signature
  body : Option Block
deriving DecidableEq

/-- `RemoveAsyncAwait::fold_item_fn`: `i.sig.asyncness = None;` then
`fold::fold_item_fn(self, i)`, whose only non-identity recursion for this
folder is the body block. -/
def foldItemFn (i : ItemFn) : ItemFn :=
  { i with sig := { i.sig with asyncness := false }, body := foldBlock i.body }

/-- `RemoveAsyncAwait::fold_trait_item_method`: clear `asyncness`, then
`fold::fold_trait_item_method`, which folds the default body when present. -/
def foldTraitItemMethod (m : TraitItemMethod) : TraitItemMethod :=
  { m with sig := { m.sig with asyncness := false }, body := m.body.map foldBlock }

/-! ## Rendering to token text (the host pretty-printer, a collaborator)

Modelled from the spec: the host serializer turns a tree back into a token
sequence whose re-parse is grammatically equivalent; each token renders as one
whitespace-separated atom, with the suspension marker printed as the single
atom `.await` and the asynchronous qualifier as the atom `async`. -/

def asyncMarker : Atom := "async".data

def awaitMarker : Atom := ".await".data

/-- Fixed punctuation and keyword atoms of the rendered token text. -/
def lparenA : Atom := "(".data

def rparenA : Atom := ")".data

def lbraceA : Atom := "\x7b".data

def rbraceA : Atom := "\x7d".data

def semiA : Atom := ";".data

def letA : Atom := "let".data

def eqA : Atom := "=".data

def fnA : Atom := "fn".data

def arrowA : Atom := "->".data

def moveA : Atom := "move".data

def pubA : Atom := "pub".data

/-- An attribute `#[name]` prints as a single atom. -/
def renderAttr (n : String) : Atom := '#' :: '[' :: (n.data ++ [']'])

def renderAttrs (attrs : List String) : List Atom := attrs.map renderAttr

mutual
def renderExpr : Expr → List Atom
  | .awaitE attrs base => renderAttrs attrs ++ renderExpr base ++ [awaitMarker]
  | .asyncE attrs cap body =>
      renderAttrs attrs ++ (asyncMarker :: (if cap then [moveA] else []))
        ++ renderBlock body
  | .blockE attrs label body =>
      renderAttrs attrs
        ++ (match label with | none => [] | some l => [l.data ++ [':']])
        ++ renderBlock body
  | .call f args => renderExpr f ++ [lparenA] ++ renderExprList args ++ [rparenA]
  | .methodCall r m args =>
      renderExpr r ++ [('.' :: m.data), lparenA] ++ renderExprList args ++ [rparenA]
  | .macE n toks => (n.data ++ ['!']) :: lparenA :: (toks ++ [rparenA])
  | .identE n => [n.data]
  | .lit v => [v.data]

def renderExprList : ExprList → List Atom
  | .nil => []
  | .cons e es => renderExpr e ++ renderExprList es

def renderStmt : Stmt → List Atom
  | .letStmt n init => [letA, n.data, eqA] ++ renderExpr init ++ [semiA]
  | .exprStmt e => renderExpr e
  | .semi e => renderExpr e ++ [semiA]

def renderBlock : Block → List Atom
  | .mk ss => [lbraceA] ++ renderStmtList ss ++ [rbraceA]

def renderStmtList : StmtList → List Atom
  | .nil => []
  | .cons s ss => renderStmt s ++ renderStmtList ss
end

def renderSignature (s : Signature) : List Atom :=
  (if s.asyncness then [asyncMarker] else [])
    ++ [fnA, s.name.data, lparenA] ++ s.inputs.map String.data ++ [rparenA]
    ++ (match s.output with | none => [] | some t => [arrowA, t.data])

def renderItemFn (i : ItemFn) : List Atom :=
  renderAttrs i.attrs
    ++ (match i.vis with | none => [] | some v => [v.data])
    ++ renderSignature i.sig ++ renderBlock i.body

def renderTraitItemMethod (m : TraitItemMethod) : List Atom :=
  renderAttrs m.attrs ++ renderSignature m.sig
    ++ (match m.body with | none => [semiA] | some b => renderBlock b)

/-! ## Text-level machinery for the literal substitution fallback -/

/-- `p` is a prefix of `s` (on character lists). -/
def isPre : Atom → Atom → Bool
  | [], _ => true
  | _ :: _, [] => false
  | c :: p, d :: s => if c = d then isPre p s else false

/-- `p` occurs as a contiguous substring of `s`. -/
def hasSub (p : Atom) : Atom → Bool
  | [] => isPre p []
  | c :: t => isPre p (c :: t) || hasSub p t

/-- Scanner for `str::replace(pat, "")`: left-to-right, non-overlapping; after
a match the next `pat.length - 1` characters (tracked by `skip`) belong to the
match and are dropped without being re-scanned. -/
def removeGo (p : Atom) (skip : Nat) : Atom → Atom
  | [] => []
  | c :: t =>
    match skip with
    | k + 1 => removeGo p k t
    | 0 =>
      if isPre p (c :: t) && !p.isEmpty then removeGo p (p.length - 1) t
      else c :: removeGo p 0 t

/-- `s.replace(p, "")`: remove every (left-to-right, non-overlapping)
occurrence of `p` from `s`. -/
def removeAll (p s : Atom) : Atom := removeGo p 0 s

/-- Split a character list on every space, keeping empty fields. -/
def words : Atom → List Atom
  | [] => [[]]
  | c :: t =>
    if c = ' ' then [] :: words t
    else
      match words t with
      | [] => [[c]]
      | w :: ws => (c :: w) :: ws

/-- Characters a non-numeric token may contain in the modelled lexer. -/
def allowedChar (c : Char) : Bool :=
  c.isAlphanum || c = '_' || c = '.' || c = '#' || c = '[' || c = ']' ||
    c = '(' || c = ')' || c = '{' || c = '}' || c = ';' || c = '=' || c = ',' ||
    c = '-' || c = '>' || c = '!' || c = ':'

/-- A lexically valid token: nonempty; a digit-initial token must be all
digits, any other token must consist of allowed characters. -/
def validWord : Atom → Bool
  | [] => false
  | c :: t => if c.isDigit then (c :: t).all Char.isDigit else (c :: t).all allowedChar

/-- Modelled from the spec: re-parsing text as a token sequence (the host
lexer, a collaborator).  Splits on whitespace and validates each word,
returning `none` (the fatal re-parse failure) on a lexically invalid word. -/
def tokenize (s : Atom) : Option (List Atom) :=
  let ws := (words s).filter (fun w => !w.isEmpty)
  if ws.all validWord then some ws else none

/-- Modelled from the spec: rendering a token sequence to its textual form
(one space between consecutive tokens). -/
def joinAtoms : List Atom → Atom
  | [] => []
  | [a] => a
  | a :: rest => a ++ ' ' :: joinAtoms rest

/-- `remove_async_await_string`: `input.to_string()`, then
`.replace("async", "").replace(".await", "")`, then `.parse().unwrap()` —
`none` models the `unwrap` panic on a failed re-parse. -/
def remove_async_await_string (input : List Atom) : Option (List Atom) :=
  tokenize (removeAll awaitMarker (removeAll asyncMarker (joinAtoms input)))

/-! ## Cleanliness and marker predicates -/

/-- An atom that is lexically valid and contains neither marker substring. -/
def cleanAtom (a : Atom) : Bool :=
  validWord a && !hasSub asyncMarker a && !hasSub awaitMarker a

/-- Atoms that survive the structural fold's marker removal. -/
def keepAtom (a : Atom) : Bool :=
  if a = asyncMarker then false else if a = awaitMarker then false else true

/-- An atom that is lexically valid and is either one of the two markers or
free of both marker substrings. -/
def goodAtom (a : Atom) : Bool :=
  validWord a &&
    (if a = asyncMarker then true
     else if a = awaitMarker then true
     else !hasSub asyncMarker a && !hasSub awaitMarker a)

def cleanLabel : Option String → Bool
  | none => true
  | some l => cleanAtom (l.data ++ [':'])

mutual
/-- The declaration's text contains the marker substrings only as actual
markers: every name/attribute/opaque atom is marker-free.  With
`strict := true` it additionally requires await expressions to carry no
attributes and async blocks to carry no `move` capture (the shapes on which
the structural fold discards tokens the textual fallback keeps). -/
def cleanExpr (strict : Bool) : Expr → Bool
  | .awaitE attrs base =>
      (if strict then attrs.isEmpty else (renderAttrs attrs).all cleanAtom) &&
        cleanExpr strict base
  | .asyncE attrs cap body =>
      (renderAttrs attrs).all cleanAtom && (!strict || !cap) && cleanBlock strict body
  | .blockE attrs label body =>
      (renderAttrs attrs).all cleanAtom && cleanLabel label && cleanBlock strict body
  | .call f args => cleanExpr strict f && cleanExprList strict args
  | .methodCall r m args =>
      cleanExpr strict r && cleanAtom ('.' :: m.data) && cleanExprList strict args
  | .macE n toks => cleanAtom (n.data ++ ['!']) && toks.all cleanAtom
  | .identE n => cleanAtom n.data
  | .lit v => cleanAtom v.data

def cleanExprList (strict : Bool) : ExprList → Bool
  | .nil => true
  | .cons e es => cleanExpr strict e && cleanExprList strict es

def cleanStmt (strict : Bool) : Stmt → Bool
  | .letStmt n init => cleanAtom n.data && cleanExpr strict init
  | .exprStmt e => cleanExpr strict e
  | .semi e => cleanExpr strict e

def cleanBlock (strict : Bool) : Block → Bool
  | .mk ss => cleanStmtList strict ss

def cleanStmtList (strict : Bool) : StmtList → Bool
  | .nil => true
  | .cons s ss => cleanStmt strict s && cleanStmtList strict ss
end

def cleanSignature (s : Signature) : Bool :=
  cleanAtom s.name.data && s.inputs.all (fun x => cleanAtom x.data) &&
    (match s.output with | none => true | some t => cleanAtom t.data)

def cleanItemFn (strict : Bool) (i : ItemFn) : Bool :=
  (renderAttrs i.attrs).all cleanAtom &&
    (match i.vis with | none => true | some v => cleanAtom v.data) &&
    cleanSignature i.sig && cleanBlock strict i.body

mutual
/-- The tree contains no await expression and no async block expression. -/
def noMarkersExpr : Expr → Bool
  | .awaitE _ _ => false
  | .asyncE _ _ _ => false
  | .blockE _ _ body => noMarkersBlock body
  | .call f args => noMarkersExpr f && noMarkersExprList args
  | .methodCall r _ args => noMarkersExpr r && noMarkersExprList args
  | .macE _ _ => true
  | .identE _ => true
  | .lit _ => true

def noMarkersExprList : ExprList → Bool
  | .nil => true
  | .cons e es => noMarkersExpr e && noMarkersExprList es

def noMarkersStmt : Stmt → Bool
  | .letStmt _ init => noMarkersExpr init
  | .exprStmt e => noMarkersExpr e
  | .semi e => noMarkersExpr e

def noMarkersBlock : Block → Bool
  | .mk ss => noMarkersStmtList ss

def noMarkersStmtList : StmtList → Bool
  | .nil => true
  | .cons s ss => noMarkersStmt s && noMarkersStmtList ss
end

def noMarkersItemFn (i : ItemFn) : Bool := noMarkersBlock i.body

def noMarkersTraitItemMethod (m : TraitItemMethod) : Bool :=
  match m.body with
  | none => true
  | some b => noMarkersBlock b

/-! ## Modelled host parser and the dispatch wrapper

Modelled from the spec: `syn::parse` is an external collaborator that turns a
token sequence into one of the two supported declaration shapes, returning a
recoverable failure when the shape does not match.  The grammar below covers
the rendered forms of the embedded tree. -/

/-- Consume leading `#[name]` attribute atoms. -/
def parseAttrsGo : List Atom → (List String × List Atom)
  | [] => ([], [])
  | a :: rest =>
    if a.take 2 = ['#', '['] ∧ a.getLast? = some ']' then
      let (attrs, rem) := parseAttrsGo rest
      (String.mk ((a.drop 2).dropLast) :: attrs, rem)
    else ([], a :: rest)

/-- Collect macro argument atoms up to the closing parenthesis. -/
def takeToks : List Atom → Option (List Atom × List Atom)
  | [] => none
  | a :: rest =>
    if a = rparenA then some ([], rest)
    else do
      let (ts, r) ← takeToks rest
      some (a :: ts, r)

/-- Collect signature parameter atoms up to the closing parenthesis. -/
def takeParams : List Atom → Option (List String × List Atom)
  | [] => none
  | a :: rest =>
    if a = rparenA then some ([], rest)
    else do
      let (ps, r) ← takeToks rest
      some (String.mk a :: ps.map String.mk, r)

mutual
def parsePrimary : Nat → List Atom → Option (Expr × List Atom)
  | 0, _ => none
  | _ + 1, [] => none
  | fuel + 1, a :: rest =>
    if a = asyncMarker then
      match rest with
      | [] => none
      | b :: rest2 =>
        if b = moveA then do
          let (blk, r) ← parseBlk fuel rest2
          some (.asyncE [] true blk, r)
        else do
          let (blk, r) ← parseBlk fuel (b :: rest2)
          some (.asyncE [] false blk, r)
    else if a = lbraceA then do
      let (blk, r) ← parseBlk fuel (a :: rest)
      some (.blockE [] none blk, r)
    else if a.getLast? = some '!' then
      match rest with
      | p :: rest2 =>
        if p = lparenA then do
          let (toks, r) ← takeToks rest2
          some (.macE (String.mk a.dropLast) toks, r)
        else none
      | [] => none
    else if validWord a then
      if (a.head?.map Char.isDigit).getD false then some (.lit (String.mk a), rest)
      else some (.identE (String.mk a), rest)
    else none

def parsePostfix : Nat → Expr → List Atom → Option (Expr × List Atom)
  | 0, _, _ => none
  | _ + 1, e, [] => some (e, [])
  | fuel + 1, e, a :: rest =>
    if a = lparenA then do
      let (args, r) ← parseArgs fuel rest
      parsePostfix fuel (.call e args) r
    else if a = awaitMarker then
      parsePostfix fuel (.awaitE [] e) rest
    else
      match a, rest with
      | '.' :: m, p :: rest2 =>
        if p = lparenA then do
          let (args, r) ← parseArgs fuel rest2
          parsePostfix fuel (.methodCall e (String.mk m) args) r
        else some (e, a :: rest)
      | _, _ => some (e, a :: rest)

def parseExprAtoms : Nat → List Atom → Option (Expr × List Atom)
  | 0, _ => none
  | fuel + 1, ts => do
    let (e, r) ← parsePrimary fuel ts
    parsePostfix fuel e r

def parseArgs : Nat → List Atom → Option (ExprList × List Atom)
  | 0, _ => none
  | _ + 1, [] => none
  | fuel + 1, a :: rest =>
    if a = rparenA then some (.nil, rest)
    else do
      let (e, r) ← parseExprAtoms fuel (a :: rest)
      let (args, r2) ← parseArgs fuel r
      some (.cons e args, r2)

def parseStmts : Nat → List Atom → Option (StmtList × List Atom)
  | 0, _ => none
  | _ + 1, [] => none
  | fuel + 1, a :: rest =>
    if a = rbraceA then some (.nil, a :: rest)
    else if a = letA then
      match rest with
      | n :: eq :: rest2 =>
        if eq = eqA ∧ validWord n then do
          let (e, r) ← parseExprAtoms fuel rest2
          match r with
          | s :: r2 =>
            if s = semiA then do
              let (ss, r3) ← parseStmts fuel r2
              some (.cons (.letStmt (String.mk n) e) ss, r3)
            else none
          | [] => none
        else none
      | _ => none
    else do
      let (e, r) ← parseExprAtoms fuel (a :: rest)
      match r with
      | s :: r2 =>
        if s = semiA then do
          let (ss, r3) ← parseStmts fuel r2
          some (.cons (.semi e) ss, r3)
        else if s = rbraceA then some (.cons (.exprStmt e) .nil, s :: r2)
        else none
      | [] => none

def parseBlk : Nat → List Atom → Option (Block × List Atom)
  | 0, _ => none
  | _ + 1, [] => none
  | fuel + 1, a :: rest =>
    if a = lbraceA then do
      let (ss, r) ← parseStmts fuel rest
      match r with
      | b :: r2 => if b = rbraceA then some (.mk ss, r2) else none
      | [] => none
    else none
end

/-- Parse an optional visibility, asynchronous qualifier and signature head,
returning the signature and the unconsumed atoms (body or `;`). -/
def parseSigHead (vis : Option String) (ts : List Atom) :
    Option (Option String × Signature × List Atom) :=
  let (asy, r) :=
    match ts with
    | a :: rest => if a = asyncMarker then (true, rest) else (false, ts)
    | [] => (false, ts)
  match r with
  | f :: n :: p :: r2 =>
    if f = fnA ∧ p = lparenA ∧ validWord n then do
      let (params, r3) ← takeParams r2
      let (out, r4) :=
        match r3 with
        | arrow :: t :: rest =>
          if arrow = arrowA then (some (String.mk t), rest) else (none, r3)
        | _ => (none, r3)
      some (vis, ⟨asy, String.mk n, params, out⟩, r4)
    else none
  | _ => none

/-- Modelled from the spec: `syn::parse::<ItemFn>`. -/
def parseItemFn (ts : List Atom) : Option ItemFn :=
  let (attrs, r0) := parseAttrsGo ts
  let (vis, r1) :=
    match r0 with
    | v :: rest => if v = pubA then (some "pub", rest) else (none, r0)
    | [] => (none, r0)
  do
    let (vis, sig, r2) ← parseSigHead vis r1
    let (body, r3) ← parseBlk (ts.length + 1) r2
    if r3 = [] then some ⟨attrs, vis, sig, body⟩ else none

/-- Modelled from the spec: `syn::parse::<TraitItemMethod>`. -/
def parseTraitItemMethod (ts : List Atom) : Option TraitItemMethod :=
  let (attrs, r0) := parseAttrsGo ts
  do
    let (_, sig, r1) ← parseSigHead none r0
    match r1 with
    | [a] =>
      if a = semiA then some ⟨attrs, sig, none⟩ else none
    | _ => do
      let (body, r2) ← parseBlk (ts.length + 1) r1
      if r2 = [] then some ⟨attrs, sig, some body⟩ else none

/-- The fixed `compile_error!` diagnostic token sequence emitted on failure of
both parse attempts. -/
def diagnosticTokens : List Atom :=
  ["compile_error".data, "!".data, lparenA,
    ("\"remove_async_await currently only supports functions and trait methods. if you are using it on a supported type, parsing probably failed; please ensure the input is valid Rust.\"").data,
    rparenA]

/-- `remove_async_await`: attempt to parse as `ItemFn`, then as
`TraitItemMethod`, and finally fall back to the diagnostic tokens. -/
def remove_async_await (input : List Atom) : List Atom :=
  match parseItemFn input with
  | some item => renderItemFn (foldItemFn item)
  | none =>
    match parseTraitItemMethod input with
    | some item => renderTraitItemMethod (foldTraitItemMethod item)
    | none => diagnosticTokens

/-! ## Concrete example declarations -/

/-- `async fn p() { let s = get().await; print(s); }` -/
def pFn : ItemFn :=
  ⟨[], none, ⟨true, "p", [], none⟩,
    .mk (.cons (.letStmt "s" (.awaitE [] (.call (.identE "get") .nil)))
      (.cons (.semi (.call (.identE "print") (.cons (.identE "s") .nil))) .nil))⟩

/-- `fn p() { let s = get(); print(s); }` -/
def pFolded : ItemFn :=
  ⟨[], none, ⟨false, "p", [], none⟩,
    .mk (.cons (.letStmt "s" (.call (.identE "get") .nil))
      (.cons (.semi (.call (.identE "print") (.cons (.identE "s") .nil))) .nil))⟩

/-- A declaration that is not asynchronous but contains an await expression:
`fn q() { let s = get().await; }` -/
def qFn : ItemFn :=
  ⟨[], none, ⟨false, "q", [], none⟩,
    .mk (.cons (.letStmt "s" (.awaitE [] (.call (.identE "get") .nil))) .nil)⟩

/-- `fn q() { let s = get(); }` -/
def qFolded : ItemFn :=
  ⟨[], none, ⟨false, "q", [], none⟩,
    .mk (.cons (.letStmt "s" (.call (.identE "get") .nil)) .nil)⟩

/-- A marker-free declaration: `pub fn r(x) -> T { r0(x); }` -/
def plainFn : ItemFn :=
  ⟨["inline"], some "pub", ⟨true, "r", ["x"], some "T"⟩,
    .mk (.cons (.semi (.call (.identE "r0") (.cons (.identE "x") .nil))) .nil)⟩

/-- `async fn g() { async move { x }; }`: its rendered text contains the
marker substrings only as actual markers, yet the structural fold drops the
`move` capture token while the textual fallback keeps it. -/
def exMove : ItemFn :=
  ⟨[], none, ⟨true, "g", [], none⟩,
    .mk (.cons (.semi (.asyncE [] true
      (.mk (.cons (.exprStmt (.identE "x")) .nil)))) .nil)⟩

/-- `fn f() { my_async_value; }`: an identifier containing the qualifier
substring, the documented corruption case of the fallback. -/
def exMy : ItemFn :=
  ⟨[], none, ⟨false, "f", [], none⟩,
    .mk (.cons (.semi (.identE "my_async_value")) .nil)⟩

/-- The token sequence of a struct declaration, an unsupported shape. -/
def structTokens : List Atom := ["struct".data, "S".data, semiA]

/-- The set of atoms every rendered atom of a clean tree belongs to. -/
def goodAtoms (l : List Atom) : Prop := ∀ a ∈ l, goodAtom a = true

/-! ## Lemmas about prefixes and substring occurrence -/

theorem isPre_iff : ∀ p s : Atom, isPre p s = true ↔ ∃ r, s = p ++ r := by
  intro p
  induction p with
  | nil => intro s; simp [isPre]
  | cons c p ih =>
    intro s
    cases s with
    | nil =>
      simp only [isPre]
      constructor
      · intro h; cases h
      · rintro ⟨r, hr⟩; cases hr
    | cons d t =>
      simp only [isPre]
      by_cases hcd : c = d
      · subst hcd
        rw [if_pos rfl, ih t]
        constructor
        · rintro ⟨r, hr⟩; exact ⟨r, by simp [hr]⟩
        · rintro ⟨r, hr⟩
          simp only [List.cons_append, List.cons.injEq] at hr
          exact ⟨r, hr.2⟩
      · rw [if_neg hcd]
        constructor
        · intro h; cases h
        · rintro ⟨r, hr⟩
          simp only [List.cons_append, List.cons.injEq] at hr
          exact absurd hr.1.symm hcd

theorem isPre_append_self (p r : Atom) : isPre p (p ++ r) = true :=
  (isPre_iff p (p ++ r)).mpr ⟨r, rfl⟩

theorem isPre_refl (p : Atom) : isPre p p = true := by
  have := isPre_append_self p []
  simpa using this

theorem hasSub_of_isPre {p s : Atom} (h : isPre p s = true) : hasSub p s = true := by
  cases s with
  | nil => simpa [hasSub] using h
  | cons c t => simp [hasSub, h]

theorem hasSub_cons {p t : Atom} (c : Char) (h : hasSub p t = true) :
    hasSub p (c :: t) = true := by
  simp [hasSub, h]

theorem hasSub_append {p t : Atom} (u : Atom) (h : hasSub p t = true) :
    hasSub p (u ++ t) = true := by
  induction u with
  | nil => simpa using h
  | cons c u ih => simpa using hasSub_cons c ih

theorem hasSub_self (p : Atom) : hasSub p p = true :=
  hasSub_of_isPre (isPre_refl p)

theorem hasSub_false_tail {p : Atom} {c : Char} {t : Atom}
    (h : hasSub p (c :: t) = false) : isPre p (c :: t) = false ∧ hasSub p t = false := by
  simpa [hasSub, Bool.or_eq_false_iff] using h

/-- Case analysis for a prefix of a concatenation: the pattern stays inside
the left part or spends it entirely and continues into the right part. -/
theorem isPre_append_cases :
    ∀ (t p u : Atom), isPre p (t ++ u) = true →
      isPre p t = true ∨ ∃ q, p = t ++ q ∧ isPre q u = true := by
  intro t
  induction t with
  | nil => intro p u h; exact Or.inr ⟨p, rfl, h⟩
  | cons c t ih =>
    intro p u h
    cases p with
    | nil => exact Or.inl (by simp [isPre])
    | cons d p' =>
      simp only [List.cons_append, isPre] at h
      by_cases hdc : d = c
      · subst hdc
        rw [if_pos rfl] at h
        rcases ih p' u h with h1 | ⟨q, hq, hqu⟩
        · exact Or.inl (by simp [isPre, h1])
        · exact Or.inr ⟨q, by simp [hq], hqu⟩
      · rw [if_neg hdc] at h; cases h

/-! ## Lemmas about the removal scanner -/

theorem removeGo_nil (p : Atom) (k : Nat) : removeGo p k [] = [] := by
  simp [removeGo]

theorem removeGo_skip (p : Atom) :
    ∀ u r : Atom, removeGo p u.length (u ++ r) = removeGo p 0 r := by
  intro u
  induction u with
  | nil => intro r; simp
  | cons c u ih => intro r; simpa [removeGo] using ih r

theorem removeGo_cons_zero (p : Atom) (c : Char) (t : Atom) :
    removeGo p 0 (c :: t) =
      if isPre p (c :: t) && !p.isEmpty then removeGo p (p.length - 1) t
      else c :: removeGo p 0 t := rfl

theorem removeGo_match {p : Atom} (hp : p ≠ []) (r : Atom) :
    removeGo p 0 (p ++ r) = removeGo p 0 r := by
  cases p with
  | nil => exact absurd rfl hp
  | cons c p' =>
    have hpre : isPre (c :: p') (c :: (p' ++ r)) = true := by
      simpa using isPre_append_self (c :: p') r
    rw [List.cons_append, removeGo_cons_zero, hpre]
    simp only [List.isEmpty_cons, Bool.not_false, Bool.and_self, if_true]
    have hlen : (c :: p').length - 1 = p'.length := by simp
    rw [hlen]
    exact removeGo_skip (c :: p') p' r

theorem removeGo_no_match {p : Atom} :
    ∀ {s : Atom}, hasSub p s = false → removeGo p 0 s = s := by
  intro s
  induction s with
  | nil => intro _; simp [removeGo]
  | cons c t ih =>
    intro h
    obtain ⟨h1, h2⟩ := hasSub_false_tail h
    rw [removeGo_cons_zero, h1]
    simp only [Bool.false_and, Bool.false_eq_true, if_false]
    rw [ih h2]

/-- If no occurrence of the pattern starts inside `a` (including occurrences
that would straddle into `rest`), the scanner copies `a` verbatim. -/
theorem removeGo_skip_clean {p : Atom} :
    ∀ (a rest : Atom),
      (∀ u t : Atom, a = u ++ t → t ≠ [] → isPre p (t ++ rest) = false) →
      removeGo p 0 (a ++ rest) = a ++ removeGo p 0 rest := by
  intro a
  induction a with
  | nil => intro rest _; simp
  | cons c a' ih =>
    intro rest H
    have hpre : isPre p (c :: (a' ++ rest)) = false := by
      simpa using H [] (c :: a') rfl (by simp)
    have H' : ∀ u t : Atom, a' = u ++ t → t ≠ [] → isPre p (t ++ rest) = false := by
      intro u t hu ht
      exact H (c :: u) t (by simp [hu]) ht
    rw [List.cons_append, removeGo_cons_zero, hpre]
    simp only [Bool.false_and, Bool.false_eq_true, if_false]
    rw [ih rest H']
    simp


theorem isPre_space_false {p : Atom} (hp : p ≠ []) (hsp : ' ' ∉ p) (x : Atom) :
    isPre p (' ' :: x) = false := by
  cases p with
  | nil => exact absurd rfl hp
  | cons c p' =>
    simp only [isPre]
    by_cases hc : c = ' '
    · exact absurd (by simp [hc]) hsp
    · rw [if_neg hc]

theorem removeGo_space {p : Atom} (hp : p ≠ []) (hsp : ' ' ∉ p) (x : Atom) :
    removeGo p 0 (' ' :: x) = ' ' :: removeGo p 0 x := by
  rw [removeGo_cons_zero, isPre_space_false hp hsp]
  simp

/-- Removing a space-free pattern from space-joined atoms, when every atom
either equals the pattern or contains no occurrence of it, deletes exactly
the atoms equal to the pattern (leaving their separators behind). -/
theorem removeAll_join (p : Atom) (hp : p ≠ []) (hsp : ' ' ∉ p) :
    ∀ l : List Atom,
      (∀ a ∈ l, (' ' ∉ a) ∧ (a = p ∨ hasSub p a = false)) →
      removeAll p (joinAtoms l) = joinAtoms (l.map fun a => if a = p then [] else a) := by
  intro l
  induction l with
  | nil => intro _; simp [joinAtoms, removeAll, removeGo]
  | cons a rest ih =>
    intro H
    obtain ⟨hasp, hap⟩ := H a (by simp)
    have hclean :
        ∀ x : Atom, a ≠ p →
          (∀ u t : Atom, a = u ++ t → t ≠ [] → isPre p (t ++ (' ' :: x)) = false) := by
      intro x hne u t hu ht
      have hsub : hasSub p a = false := by
        rcases hap with h | h
        · exact absurd h hne
        · exact h
      by_contra hcon
      have htrue : isPre p (t ++ (' ' :: x)) = true := by
        cases hpre : isPre p (t ++ (' ' :: x))
        · exact absurd hpre hcon
        · rfl
      rcases isPre_append_cases t p (' ' :: x) htrue with h1 | ⟨q, hq, hqu⟩
      · have : hasSub p a = true := hu ▸ hasSub_append u (hasSub_of_isPre h1)
        rw [this] at hsub; cases hsub
      · cases q with
        | nil =>
          have hpt : p = t := by simpa using hq
          have : hasSub p a = true :=
            hu ▸ hasSub_append u (hpt ▸ hasSub_self p)
          rw [this] at hsub; cases hsub
        | cons d q' =>
          have hd : d = ' ' := by
            simp only [isPre] at hqu
            by_cases hd : d = ' '
            · exact hd
            · rw [if_neg hd] at hqu; cases hqu
          exact absurd (by simp [hq, hd]) hsp
    cases rest with
    | nil =>
      by_cases hae : a = p
      · subst hae
        have : removeAll a (joinAtoms [a]) = removeGo a 0 (a ++ []) := by
          simp [joinAtoms, removeAll]
        rw [this, removeGo_match hp]
        simp [joinAtoms, removeGo]
      · have hsub : hasSub p a = false := by
          rcases hap with h | h
          · exact absurd h hae
          · exact h
        simp [joinAtoms, removeAll, removeGo_no_match hsub, if_neg hae]
    | cons b rest' =>
      have hja : joinAtoms (a :: b :: rest') = a ++ ' ' :: joinAtoms (b :: rest') := rfl
      have ih' := ih (fun x hx => H x (by simp [hx]))
      by_cases hae : a = p
      · subst hae
        rw [removeAll, hja, removeGo_match hp, removeGo_space hp hsp]
        rw [show removeGo a 0 (joinAtoms (b :: rest')) =
              removeAll a (joinAtoms (b :: rest')) from rfl, ih']
        simp [joinAtoms]
      · rw [removeAll, hja, removeGo_skip_clean a _ (hclean _ hae),
          removeGo_space hp hsp]
        rw [show removeGo p 0 (joinAtoms (b :: rest')) =
              removeAll p (joinAtoms (b :: rest')) from rfl, ih']
        simp [joinAtoms, if_neg hae]

/-! ## Lemmas about `words` and `tokenize` -/

theorem words_ne_nil : ∀ s : Atom, words s ≠ [] := by
  intro s
  induction s with
  | nil => simp [words]
  | cons c t ih =>
    simp only [words]
    by_cases hc : c = ' '
    · simp [hc]
    · rw [if_neg hc]
      cases hw : words t with
      | nil => exact absurd hw ih
      | cons w ws => simp

theorem words_append :
    ∀ (a s w : Atom) (ws : List Atom), ' ' ∉ a → words s = w :: ws →
      words (a ++ s) = (a ++ w) :: ws := by
  intro a
  induction a with
  | nil => intro s w ws _ h; simpa using h
  | cons c a' ih =>
    intro s w ws hsp h
    have hc : ¬ c = ' ' := fun hc => hsp (by simp [hc])
    have h' := ih s w ws (fun hm => hsp (by simp [hm])) h
    simp [words, if_neg hc, h']

theorem words_join_filter :
    ∀ l : List Atom, (∀ a ∈ l, ' ' ∉ a) →
      (words (joinAtoms l)).filter (fun w => !w.isEmpty) =
        l.filter (fun w => !w.isEmpty) := by
  intro l
  induction l with
  | nil => intro _; simp [joinAtoms, words]
  | cons a rest ih =>
    intro H
    cases rest with
    | nil =>
      have hw : words (a ++ []) = (a ++ []) :: [] :=
        words_append a [] [] [] (H a (by simp)) (by simp [words])
      have hwa : words a = [a] := by simpa using hw
      show (words (joinAtoms [a])).filter _ = _
      rw [show joinAtoms [a] = a from rfl, hwa]
    | cons b rest' =>
      have hwsp : words (' ' :: joinAtoms (b :: rest')) =
          [] :: words (joinAtoms (b :: rest')) := by simp [words]
      have hw : words (a ++ ' ' :: joinAtoms (b :: rest')) =
          (a ++ []) :: words (joinAtoms (b :: rest')) :=
        words_append a _ [] _ (H a (by simp)) hwsp
      have ih' := ih (fun x hx => H x (by simp [hx]))
      show (words (joinAtoms (a :: b :: rest'))).filter _ = _
      rw [show joinAtoms (a :: b :: rest') = a ++ ' ' :: joinAtoms (b :: rest') from rfl,
        hw]
      simp only [List.append_nil, List.filter_cons, ih']

theorem tokenize_join (l : List Atom) (h : ∀ a ∈ l, ' ' ∉ a) :
    tokenize (joinAtoms l) =
      if ((l.filter (fun w => !w.isEmpty)).all validWord) then
        some (l.filter (fun w => !w.isEmpty)) else none := by
  unfold tokenize
  rw [words_join_filter l h]

/-! ## The fold on marker-free trees, and marker-freeness of its output -/

mutual
theorem foldExpr_id : ∀ e : Expr, noMarkersExpr e = true → foldExpr e = e
  | .awaitE _ _, h => by simp [noMarkersExpr] at h
  | .asyncE _ _ _, h => by simp [noMarkersExpr] at h
  | .blockE attrs label body, h => by
      simp only [noMarkersExpr] at h
      simp only [foldExpr, foldBlock_id body h]
  | .call f args, h => by
      simp only [noMarkersExpr, Bool.and_eq_true] at h
      simp only [foldExpr, foldExpr_id f h.1, foldExprList_id args h.2]
  | .methodCall r m args, h => by
      simp only [noMarkersExpr, Bool.and_eq_true] at h
      simp only [foldExpr, foldExpr_id r h.1, foldExprList_id args h.2]
  | .macE _ _, _ => rfl
  | .identE _, _ => rfl
  | .lit _, _ => rfl

theorem foldExprList_id : ∀ es : ExprList, noMarkersExprList es = true → foldExprList es = es
  | .nil, _ => rfl
  | .cons e es, h => by
      simp only [noMarkersExprList, Bool.and_eq_true] at h
      simp only [foldExprList, foldExpr_id e h.1, foldExprList_id es h.2]

theorem foldStmt_id : ∀ s : Stmt, noMarkersStmt s = true → foldStmt s = s
  | .letStmt n init, h => by
      simp only [noMarkersStmt] at h
      simp only [foldStmt, foldExpr_id init h]
  | .exprStmt e, h => by
      simp only [noMarkersStmt] at h
      simp only [foldStmt, foldExpr_id e h]
  | .semi e, h => by
      simp only [noMarkersStmt] at h
      simp only [foldStmt, foldExpr_id e h]

theorem foldBlock_id : ∀ b : Block, noMarkersBlock b = true → foldBlock b = b
  | .mk ss, h => by
      simp only [noMarkersBlock] at h
      simp only [foldBlock, foldStmtList_id ss h]

theorem foldStmtList_id : ∀ ss : StmtList, noMarkersStmtList ss = true → foldStmtList ss = ss
  | .nil, _ => rfl
  | .cons s ss, h => by
      simp only [noMarkersStmtList, Bool.and_eq_true] at h
      simp only [foldStmtList, foldStmt_id s h.1, foldStmtList_id ss h.2]
end

mutual
theorem noMarkers_foldExpr : ∀ e : Expr, noMarkersExpr (foldExpr e) = true
  | .awaitE _ base => noMarkers_foldExpr base
  | .asyncE _ _ body => by
      simp only [foldExpr, noMarkersExpr, noMarkers_foldBlock body]
  | .blockE _ _ body => by
      simp only [foldExpr, noMarkersExpr, noMarkers_foldBlock body]
  | .call f args => by
      simp only [foldExpr, noMarkersExpr, noMarkers_foldExpr f,
        noMarkers_foldExprList args, Bool.and_self]
  | .methodCall r _ args => by
      simp only [foldExpr, noMarkersExpr, noMarkers_foldExpr r,
        noMarkers_foldExprList args, Bool.and_self]
  | .macE _ _ => rfl
  | .identE _ => rfl
  | .lit _ => rfl

theorem noMarkers_foldExprList : ∀ es : ExprList, noMarkersExprList (foldExprList es) = true
  | .nil => rfl
  | .cons e es => by
      simp only [foldExprList, noMarkersExprList, noMarkers_foldExpr e,
        noMarkers_foldExprList es, Bool.and_self]

theorem noMarkers_foldStmt : ∀ s : Stmt, noMarkersStmt (foldStmt s) = true
  | .letStmt n init => by
      simp only [foldStmt, noMarkersStmt, noMarkers_foldExpr init]
  | .exprStmt e => by
      simp only [foldStmt, noMarkersStmt, noMarkers_foldExpr e]
  | .semi e => by
      simp only [foldStmt, noMarkersStmt, noMarkers_foldExpr e]

theorem noMarkers_foldBlock : ∀ b : Block, noMarkersBlock (foldBlock b) = true
  | .mk ss => by
      simp only [foldBlock, noMarkersBlock, noMarkers_foldStmtList ss]

theorem noMarkers_foldStmtList : ∀ ss : StmtList, noMarkersStmtList (foldStmtList ss) = true
  | .nil => rfl
  | .cons s ss => by
      simp only [foldStmtList, noMarkersStmtList, noMarkers_foldStmt s,
        noMarkers_foldStmtList ss, Bool.and_self]
end

/-! ## Atom-level consequences of cleanliness -/

theorem validWord_ne_nil {a : Atom} (h : validWord a = true) : a ≠ [] := by
  intro he
  subst he
  simp [validWord] at h

theorem validWord_no_space {a : Atom} (h : validWord a = true) : ' ' ∉ a := by
  intro hm
  cases a with
  | nil => simp [validWord] at h
  | cons c t =>
    simp only [validWord] at h
    by_cases hd : c.isDigit
    · rw [if_pos hd] at h
      have := List.all_eq_true.mp h ' ' hm
      simp at this
    · rw [if_neg hd] at h
      have := List.all_eq_true.mp h ' ' hm
      simp [allowedChar] at this

theorem cleanAtom_valid {a : Atom} (h : cleanAtom a = true) : validWord a = true := by
  simp only [cleanAtom, Bool.and_eq_true] at h
  exact h.1.1

theorem keepAtom_of_cleanAtom {a : Atom} (h : cleanAtom a = true) : keepAtom a = true := by
  simp only [cleanAtom, Bool.and_eq_true, Bool.not_eq_true'] at h
  have h1 : a ≠ asyncMarker := by
    intro he; subst he; rw [hasSub_self] at h; exact absurd h.1.2 (by simp)
  have h2 : a ≠ awaitMarker := by
    intro he; subst he; rw [hasSub_self] at h; exact absurd h.2 (by simp)
  simp [keepAtom, h1, h2]

theorem goodAtom_of_cleanAtom {a : Atom} (h : cleanAtom a = true) : goodAtom a = true := by
  have hv := cleanAtom_valid h
  simp only [cleanAtom, Bool.and_eq_true] at h
  by_cases h1 : a = asyncMarker
  · subst h1; decide
  · by_cases h2 : a = awaitMarker
    · subst h2; decide
    · simp [goodAtom, hv, h1, h2, h.1.2, h.2]

theorem goodAtoms_nil : goodAtoms [] := by intro a ha; cases ha

theorem goodAtoms_append {l1 l2 : List Atom} (h1 : goodAtoms l1) (h2 : goodAtoms l2) :
    goodAtoms (l1 ++ l2) := by
  intro a ha
  rcases List.mem_append.mp ha with h | h
  · exact h1 a h
  · exact h2 a h

theorem goodAtoms_cons {a : Atom} {l : List Atom} (h : goodAtom a = true)
    (hl : goodAtoms l) : goodAtoms (a :: l) := by
  intro x hx
  rcases List.mem_cons.mp hx with h' | h'
  · exact h' ▸ h
  · exact hl x h'

theorem goodAtoms_single {a : Atom} (h : goodAtom a = true) : goodAtoms [a] :=
  goodAtoms_cons h goodAtoms_nil

theorem goodAtoms_of_all_clean {l : List Atom} (h : l.all cleanAtom = true) :
    goodAtoms l := by
  intro a ha
  exact goodAtom_of_cleanAtom (List.all_eq_true.mp h a ha)

theorem goodAtoms_attrs {attrs : List String}
    (h : (renderAttrs attrs).all cleanAtom = true) : goodAtoms (renderAttrs attrs) :=
  goodAtoms_of_all_clean h

mutual
theorem renderExpr_good : ∀ e : Expr, cleanExpr true e = true → goodAtoms (renderExpr e)
  | .awaitE attrs base, h => by
      simp only [cleanExpr, if_pos, Bool.and_eq_true, List.isEmpty_iff] at h
      rw [renderExpr, h.1]
      exact goodAtoms_append (goodAtoms_append goodAtoms_nil (renderExpr_good base h.2))
        (goodAtoms_single (by decide))
  | .asyncE attrs cap body, h => by
      simp only [cleanExpr, Bool.and_eq_true, Bool.not_true, Bool.false_or,
        Bool.not_eq_true'] at h
      obtain ⟨⟨hat, hcap⟩, hb⟩ := h
      subst hcap
      have hr : renderExpr (.asyncE attrs false body)
          = renderAttrs attrs ++ ([asyncMarker] ++ renderBlock body) := by
        simp [renderExpr]
      rw [hr]
      exact goodAtoms_append (goodAtoms_attrs hat)
        (goodAtoms_append (goodAtoms_single (by decide)) (renderBlock_good body hb))
  | .blockE attrs label body, h => by
      simp only [cleanExpr, Bool.and_eq_true] at h
      obtain ⟨⟨hat, hlab⟩, hb⟩ := h
      cases label with
      | none =>
        have hr : renderExpr (.blockE attrs none body)
            = renderAttrs attrs ++ renderBlock body := by simp [renderExpr]
        rw [hr]
        exact goodAtoms_append (goodAtoms_attrs hat) (renderBlock_good body hb)
      | some l =>
        have hr : renderExpr (.blockE attrs (some l) body)
            = renderAttrs attrs ++ ([l.data ++ [':']] ++ renderBlock body) := by
          simp [renderExpr]
        rw [hr]
        simp only [cleanLabel] at hlab
        exact goodAtoms_append (goodAtoms_attrs hat)
          (goodAtoms_append (goodAtoms_single (goodAtom_of_cleanAtom hlab))
            (renderBlock_good body hb))
  | .call f args, h => by
      simp only [cleanExpr, Bool.and_eq_true] at h
      rw [renderExpr]
      exact goodAtoms_append
        (goodAtoms_append
          (goodAtoms_append (renderExpr_good f h.1) (goodAtoms_single (by decide)))
          (renderExprList_good args h.2))
        (goodAtoms_single (by decide))
  | .methodCall r m args, h => by
      simp only [cleanExpr, Bool.and_eq_true] at h
      rw [renderExpr]
      exact goodAtoms_append
        (goodAtoms_append
          (goodAtoms_append (renderExpr_good r h.1.1)
            (goodAtoms_cons (goodAtom_of_cleanAtom h.1.2)
              (goodAtoms_single (by decide))))
          (renderExprList_good args h.2))
        (goodAtoms_single (by decide))
  | .macE n toks, h => by
      simp only [cleanExpr, Bool.and_eq_true] at h
      rw [renderExpr]
      exact goodAtoms_cons (goodAtom_of_cleanAtom h.1)
        (goodAtoms_cons (by decide)
          (goodAtoms_append (goodAtoms_of_all_clean h.2) (goodAtoms_single (by decide))))
  | .identE n, h => by
      simp only [cleanExpr] at h
      rw [renderExpr]
      exact goodAtoms_single (goodAtom_of_cleanAtom h)
  | .lit v, h => by
      simp only [cleanExpr] at h
      rw [renderExpr]
      exact goodAtoms_single (goodAtom_of_cleanAtom h)

theorem renderExprList_good :
    ∀ es : ExprList, cleanExprList true es = true → goodAtoms (renderExprList es)
  | .nil, _ => goodAtoms_nil
  | .cons e es, h => by
      simp only [cleanExprList, Bool.and_eq_true] at h
      rw [renderExprList]
      exact goodAtoms_append (renderExpr_good e h.1) (renderExprList_good es h.2)

theorem renderStmt_good : ∀ s : Stmt, cleanStmt true s = true → goodAtoms (renderStmt s)
  | .letStmt n init, h => by
      simp only [cleanStmt, Bool.and_eq_true] at h
      rw [renderStmt]
      exact goodAtoms_append
        (goodAtoms_append
          (goodAtoms_cons (by decide)
            (goodAtoms_cons (goodAtom_of_cleanAtom h.1) (goodAtoms_single (by decide))))
          (renderExpr_good init h.2))
        (goodAtoms_single (by decide))
  | .exprStmt e, h => by
      simp only [cleanStmt] at h
      rw [renderStmt]
      exact renderExpr_good e h
  | .semi e, h => by
      simp only [cleanStmt] at h
      rw [renderStmt]
      exact goodAtoms_append (renderExpr_good e h) (goodAtoms_single (by decide))

theorem renderBlock_good : ∀ b : Block, cleanBlock true b = true → goodAtoms (renderBlock b)
  | .mk ss, h => by
      simp only [cleanBlock] at h
      rw [renderBlock]
      exact goodAtoms_append
        (goodAtoms_append (goodAtoms_single (by decide)) (renderStmtList_good ss h))
        (goodAtoms_single (by decide))

theorem renderStmtList_good :
    ∀ ss : StmtList, cleanStmtList true ss = true → goodAtoms (renderStmtList ss)
  | .nil, _ => goodAtoms_nil
  | .cons s ss, h => by
      simp only [cleanStmtList, Bool.and_eq_true] at h
      rw [renderStmtList]
      exact goodAtoms_append (renderStmt_good s h.1) (renderStmtList_good ss h.2)
end

theorem renderSignature_good {s : Signature} (h : cleanSignature s = true) :
    goodAtoms (renderSignature s) := by
  simp only [cleanSignature, Bool.and_eq_true] at h
  obtain ⟨⟨hn, hin⟩, hout⟩ := h
  have hparams : goodAtoms (s.inputs.map String.data) := by
    intro a ha
    rcases List.mem_map.mp ha with ⟨x, hx, rfl⟩
    exact goodAtom_of_cleanAtom (List.all_eq_true.mp hin x hx)
  have hout' : goodAtoms
      (match s.output with | none => [] | some t => [arrowA, t.data]) := by
    cases ho : s.output with
    | none => exact goodAtoms_nil
    | some t =>
      rw [ho] at hout
      exact goodAtoms_cons (by decide)
        (goodAtoms_single (goodAtom_of_cleanAtom (by simpa using hout)))
  have hasy : goodAtoms (if s.asyncness then [asyncMarker] else []) := by
    by_cases hA : s.asyncness = true
    · rw [if_pos hA]; exact goodAtoms_single (by decide)
    · rw [if_neg hA]; exact goodAtoms_nil
  unfold renderSignature
  simp only [List.append_assoc]
  refine goodAtoms_append hasy ?_
  refine goodAtoms_cons (by decide) ?_
  refine goodAtoms_cons (goodAtom_of_cleanAtom hn) ?_
  refine goodAtoms_cons (by decide) ?_
  intro a ha
  rcases List.mem_append.mp ha with h | h
  · cases h
  · rcases List.mem_append.mp h with h1 | h1
    · exact hparams a h1
    · rcases List.mem_append.mp h1 with h2 | h2
      · have haeq : a = rparenA := by simpa using h2
        subst haeq; decide
      · exact hout' a h2

theorem renderItemFn_good {i : ItemFn} (h : cleanItemFn true i = true) :
    goodAtoms (renderItemFn i) := by
  simp only [cleanItemFn, Bool.and_eq_true] at h
  obtain ⟨⟨⟨hat, hvis⟩, hsig⟩, hb⟩ := h
  have hv : goodAtoms (match i.vis with | none => [] | some v => [v.data]) := by
    cases hvv : i.vis with
    | none => exact goodAtoms_nil
    | some v =>
      rw [hvv] at hvis
      exact goodAtoms_single (goodAtom_of_cleanAtom (by simpa using hvis))
  unfold renderItemFn
  simp only [List.append_assoc]
  exact goodAtoms_append (goodAtoms_attrs hat)
    (goodAtoms_append hv
      (goodAtoms_append (renderSignature_good hsig) (renderBlock_good i.body hb)))

/-! ## The structural fold at the token level -/

@[simp] theorem keepAtom_asyncMarker : keepAtom asyncMarker = false := by decide

@[simp] theorem keepAtom_awaitMarker : keepAtom awaitMarker = false := by decide

@[simp] theorem keepAtom_lparenA : keepAtom lparenA = true := by decide

@[simp] theorem keepAtom_rparenA : keepAtom rparenA = true := by decide

@[simp] theorem keepAtom_lbraceA : keepAtom lbraceA = true := by decide

@[simp] theorem keepAtom_rbraceA : keepAtom rbraceA = true := by decide

@[simp] theorem keepAtom_semiA : keepAtom semiA = true := by decide

@[simp] theorem keepAtom_letA : keepAtom letA = true := by decide

@[simp] theorem keepAtom_eqA : keepAtom eqA = true := by decide

@[simp] theorem keepAtom_fnA : keepAtom fnA = true := by decide

@[simp] theorem keepAtom_arrowA : keepAtom arrowA = true := by decide

theorem filter_keep_of_clean {l : List Atom} (h : l.all cleanAtom = true) :
    l.filter keepAtom = l :=
  List.filter_eq_self.mpr (fun a ha => keepAtom_of_cleanAtom (List.all_eq_true.mp h a ha))

mutual
theorem renderExpr_fold :
    ∀ e : Expr, cleanExpr true e = true →
      renderExpr (foldExpr e) = (renderExpr e).filter keepAtom
  | .awaitE attrs base, h => by
      simp only [cleanExpr, if_pos, Bool.and_eq_true, List.isEmpty_iff] at h
      obtain ⟨ha, hb⟩ := h
      subst ha
      simp [foldExpr, renderExpr, renderAttrs, List.filter_append, List.filter_cons,
        renderExpr_fold base hb]
  | .asyncE attrs cap body, h => by
      simp only [cleanExpr, Bool.and_eq_true, Bool.not_true, Bool.false_or,
        Bool.not_eq_true'] at h
      obtain ⟨⟨hat, hcap⟩, hb⟩ := h
      subst hcap
      simp [foldExpr, renderExpr, List.filter_append, List.filter_cons,
        filter_keep_of_clean hat, renderBlock_fold body hb]
  | .blockE attrs label body, h => by
      simp only [cleanExpr, Bool.and_eq_true] at h
      obtain ⟨⟨hat, hlab⟩, hb⟩ := h
      cases label with
      | none =>
        simp [foldExpr, renderExpr, List.filter_append,
          filter_keep_of_clean hat, renderBlock_fold body hb]
      | some l =>
        simp only [cleanLabel] at hlab
        simp [foldExpr, renderExpr, List.filter_append, List.filter_cons,
          filter_keep_of_clean hat, keepAtom_of_cleanAtom hlab,
          renderBlock_fold body hb]
  | .call f args, h => by
      simp only [cleanExpr, Bool.and_eq_true] at h
      simp [foldExpr, renderExpr, List.filter_append, List.filter_cons,
        renderExpr_fold f h.1, renderExprList_fold args h.2]
  | .methodCall r m args, h => by
      simp only [cleanExpr, Bool.and_eq_true] at h
      simp [foldExpr, renderExpr, List.filter_append, List.filter_cons,
        renderExpr_fold r h.1.1, keepAtom_of_cleanAtom h.1.2,
        renderExprList_fold args h.2]
  | .macE n toks, h => by
      simp only [cleanExpr, Bool.and_eq_true] at h
      simp [foldExpr, renderExpr, List.filter_append, List.filter_cons,
        keepAtom_of_cleanAtom h.1, filter_keep_of_clean h.2]
  | .identE n, h => by
      simp only [cleanExpr] at h
      simp [foldExpr, renderExpr, List.filter_cons, keepAtom_of_cleanAtom h]
  | .lit v, h => by
      simp only [cleanExpr] at h
      simp [foldExpr, renderExpr, List.filter_cons, keepAtom_of_cleanAtom h]

theorem renderExprList_fold :
    ∀ es : ExprList, cleanExprList true es = true →
      renderExprList (foldExprList es) = (renderExprList es).filter keepAtom
  | .nil, _ => rfl
  | .cons e es, h => by
      simp only [cleanExprList, Bool.and_eq_true] at h
      simp [foldExprList, renderExprList, List.filter_append,
        renderExpr_fold e h.1, renderExprList_fold es h.2]

theorem renderStmt_fold :
    ∀ s : Stmt, cleanStmt true s = true →
      renderStmt (foldStmt s) = (renderStmt s).filter keepAtom
  | .letStmt n init, h => by
      simp only [cleanStmt, Bool.and_eq_true] at h
      simp [foldStmt, renderStmt, List.filter_append, List.filter_cons,
        keepAtom_of_cleanAtom h.1, renderExpr_fold init h.2]
  | .exprStmt e, h => by
      simp only [cleanStmt] at h
      simp [foldStmt, renderStmt, renderExpr_fold e h]
  | .semi e, h => by
      simp only [cleanStmt] at h
      simp [foldStmt, renderStmt, List.filter_append, List.filter_cons,
        renderExpr_fold e h]

theorem renderBlock_fold :
    ∀ b : Block, cleanBlock true b = true →
      renderBlock (foldBlock b) = (renderBlock b).filter keepAtom
  | .mk ss, h => by
      simp only [cleanBlock] at h
      simp [foldBlock, renderBlock, List.filter_append, List.filter_cons,
        renderStmtList_fold ss h]

theorem renderStmtList_fold :
    ∀ ss : StmtList, cleanStmtList true ss = true →
      renderStmtList (foldStmtList ss) = (renderStmtList ss).filter keepAtom
  | .nil, _ => rfl
  | .cons s ss, h => by
      simp only [cleanStmtList, Bool.and_eq_true] at h
      simp [foldStmtList, renderStmtList, List.filter_append,
        renderStmt_fold s h.1, renderStmtList_fold ss h.2]
end

theorem renderSignature_fold {s : Signature} (h : cleanSignature s = true) :
    renderSignature { s with asyncness := false } = (renderSignature s).filter keepAtom := by
  simp only [cleanSignature, Bool.and_eq_true] at h
  obtain ⟨⟨hn, hin⟩, hout⟩ := h
  have hparams : (s.inputs.map String.data).filter keepAtom = s.inputs.map String.data := by
    refine List.filter_eq_self.mpr ?_
    intro a ha
    rcases List.mem_map.mp ha with ⟨x, hx, rfl⟩
    exact keepAtom_of_cleanAtom (List.all_eq_true.mp hin x hx)
  have hout' :
      (match s.output with | none => [] | some t => [arrowA, t.data]).filter keepAtom
        = (match s.output with | none => [] | some t => [arrowA, t.data]) := by
    cases ho : s.output with
    | none => rfl
    | some t =>
      rw [ho] at hout
      simp [List.filter_cons, keepAtom_of_cleanAtom (by simpa using hout)]
  by_cases hA : s.asyncness = true
  · simp [renderSignature, hA, List.filter_append, List.filter_cons,
      keepAtom_of_cleanAtom hn, hparams, hout']
  · have hA' : s.asyncness = false := by
      cases hB : s.asyncness
      · rfl
      · exact absurd hB hA
    simp [renderSignature, hA', List.filter_append, List.filter_cons,
      keepAtom_of_cleanAtom hn, hparams, hout']

theorem renderItemFn_fold {i : ItemFn} (h : cleanItemFn true i = true) :
    renderItemFn (foldItemFn i) = (renderItemFn i).filter keepAtom := by
  simp only [cleanItemFn, Bool.and_eq_true] at h
  obtain ⟨⟨⟨hat, hvis⟩, hsig⟩, hb⟩ := h
  have hv : (match i.vis with | none => [] | some v => [v.data]).filter keepAtom
      = (match i.vis with | none => [] | some v => [v.data]) := by
    cases hvv : i.vis with
    | none => rfl
    | some v =>
      rw [hvv] at hvis
      simp [List.filter_cons, keepAtom_of_cleanAtom (by simpa using hvis)]
  show renderAttrs i.attrs
      ++ (match i.vis with | none => [] | some v => [v.data])
      ++ renderSignature { i.sig with asyncness := false }
      ++ renderBlock (foldBlock i.body) = _
  rw [renderSignature_fold hsig, renderBlock_fold i.body hb]
  simp [renderItemFn, List.filter_append, filter_keep_of_clean hat, hv]

/-! ## The fallback pipeline on clean rendered declarations -/

theorem goodAtom_valid {a : Atom} (h : goodAtom a = true) : validWord a = true := by
  simp only [goodAtom, Bool.and_eq_true] at h
  exact h.1

theorem goodAtom_cases {a : Atom} (h : goodAtom a = true) :
    a = asyncMarker ∨ a = awaitMarker ∨
      (hasSub asyncMarker a = false ∧ hasSub awaitMarker a = false) := by
  simp only [goodAtom, Bool.and_eq_true] at h
  by_cases h1 : a = asyncMarker
  · exact Or.inl h1
  · by_cases h2 : a = awaitMarker
    · exact Or.inr (Or.inl h2)
    · right; right
      have h3 := h.2
      rw [if_neg h1, if_neg h2] at h3
      simpa [Bool.and_eq_true, Bool.not_eq_true'] using h3

theorem keepAtom_of_good_not_marker {a : Atom} (h1 : a ≠ asyncMarker)
    (h2 : a ≠ awaitMarker) : keepAtom a = true := by
  simp [keepAtom, h1, h2]

theorem filter_map_markers :
    ∀ l : List Atom, goodAtoms l →
      (((l.map fun a => if a = asyncMarker then [] else a).map
          fun a => if a = awaitMarker then [] else a).filter (fun w => !w.isEmpty))
        = l.filter keepAtom := by
  intro l
  induction l with
  | nil => intro _; rfl
  | cons a rest ih =>
    intro hg
    have ih' := ih (fun x hx => hg x (by simp [hx]))
    have hgd := hg a (by simp)
    simp only [List.map_cons, List.filter_cons]
    by_cases h1 : a = asyncMarker
    · rw [if_pos h1, ite_self]
      have hka : keepAtom a = false := by rw [h1]; exact keepAtom_asyncMarker
      simp only [List.isEmpty_nil, Bool.not_true, Bool.false_eq_true, if_false, hka]
      exact ih'
    · rw [if_neg h1]
      by_cases h2 : a = awaitMarker
      · rw [if_pos h2]
        have hka : keepAtom a = false := by rw [h2]; exact keepAtom_awaitMarker
        simp only [List.isEmpty_nil, Bool.not_true, Bool.false_eq_true, if_false, hka]
        exact ih'
      · rw [if_neg h2]
        have hne : a ≠ [] := validWord_ne_nil (goodAtom_valid hgd)
        have hemp : (!a.isEmpty) = true := by
          cases a with
          | nil => exact absurd rfl hne
          | cons c t => rfl
        rw [hemp, if_pos rfl, keepAtom_of_good_not_marker h1 h2, if_pos rfl, ih']

/-- On a token list all of whose atoms are good, the literal substitution
fallback re-parses successfully and returns exactly the atoms the structural
fold keeps. -/
theorem fallback_output_of_good {l : List Atom} (hg : goodAtoms l) :
    remove_async_await_string l = some (l.filter keepAtom) := by
  have hs1 : ∀ a ∈ l, (' ' ∉ a) ∧ (a = asyncMarker ∨ hasSub asyncMarker a = false) := by
    intro a ha
    have hgd := hg a ha
    refine ⟨validWord_no_space (goodAtom_valid hgd), ?_⟩
    rcases goodAtom_cases hgd with h1 | h2 | h3
    · exact Or.inl h1
    · subst h2; exact Or.inr (by decide)
    · exact Or.inr h3.1
  have e1 : removeAll asyncMarker (joinAtoms l)
      = joinAtoms (l.map fun a => if a = asyncMarker then [] else a) :=
    removeAll_join asyncMarker (by decide) (by decide) l hs1
  have hs2 : ∀ a ∈ (l.map fun a => if a = asyncMarker then [] else a),
      (' ' ∉ a) ∧ (a = awaitMarker ∨ hasSub awaitMarker a = false) := by
    intro a ha
    rcases List.mem_map.mp ha with ⟨b, hb, rfl⟩
    have hgd := hg b hb
    by_cases h1 : b = asyncMarker
    · rw [if_pos h1]
      exact ⟨by simp, Or.inr (by decide)⟩
    · rw [if_neg h1]
      refine ⟨validWord_no_space (goodAtom_valid hgd), ?_⟩
      rcases goodAtom_cases hgd with hx | hx | hx
      · exact absurd hx h1
      · exact Or.inl hx
      · exact Or.inr hx.2
  have e2 : removeAll awaitMarker
        (joinAtoms (l.map fun a => if a = asyncMarker then [] else a))
      = joinAtoms ((l.map fun a => if a = asyncMarker then [] else a).map
          fun a => if a = awaitMarker then [] else a) :=
    removeAll_join awaitMarker (by decide) (by decide) _ hs2
  have hnospace : ∀ a ∈ ((l.map fun a => if a = asyncMarker then [] else a).map
      fun a => if a = awaitMarker then [] else a), ' ' ∉ a := by
    intro a ha
    rcases List.mem_map.mp ha with ⟨b, hb, rfl⟩
    rcases List.mem_map.mp hb with ⟨c, hc, rfl⟩
    have hgd := hg c hc
    have hcs : ' ' ∉ c := validWord_no_space (goodAtom_valid hgd)
    by_cases h1 : c = asyncMarker
    · rw [if_pos h1, ite_self]; simp
    · rw [if_neg h1]
      by_cases h2 : c = awaitMarker
      · rw [if_pos h2]; simp
      · rw [if_neg h2]; exact hcs
  have hvalid : ((l.filter keepAtom).all validWord) = true := by
    refine List.all_eq_true.mpr ?_
    intro a ha
    exact goodAtom_valid (hg a (List.mem_of_mem_filter ha))
  show tokenize (removeAll awaitMarker (removeAll asyncMarker (joinAtoms l)))
      = some (l.filter keepAtom)
  rw [e1, e2, tokenize_join _ hnospace, filter_map_markers l hg, hvalid]
  simp

/-- On a clean declaration the fallback output is token-equivalent to the
structural folder output. -/
theorem fallback_eq_structural {f : ItemFn} (h : cleanItemFn true f = true) :
    remove_async_await_string (renderItemFn f)
      = some (renderItemFn (foldItemFn f)) := by
  rw [fallback_output_of_good (renderItemFn_good h), renderItemFn_fold h]

/-! ## The claims -/

/-- C1: folding replaces every `await(E)` by the fold of its operand, so
chains `await(await(E))` collapse fully to `fold(E)`; concretely, folding
`async fn p() { let s = get().await; print(s); }` yields
`fn p() { let s = get(); print(s); }`. -/
theorem claim_await_unwrap :
    (∀ (attrs : List String) (E : Expr), foldExpr (.awaitE attrs E) = foldExpr E) ∧
    (∀ (attrs attrs2 : List String) (E : Expr),
      foldExpr (.awaitE attrs (.awaitE attrs2 E)) = foldExpr E) ∧
    foldItemFn pFn = pFolded :=
  ⟨fun _ _ => rfl, fun _ _ _ => rfl, by decide⟩

/-- C2: folding an async block `async { B }` with attribute list `A` yields an
ordinary (label-free) block expression with the same attributes and the folded
block; the fold maps statements pointwise, preserving their order. -/
theorem claim_async_block :
    (∀ (attrs : List String) (cap : Bool) (B : Block),
      foldExpr (.asyncE attrs cap B) = .blockE attrs none (foldBlock B)) ∧
    (∀ ss : StmtList, foldBlock (.mk ss) = .mk (foldStmtList ss)) ∧
    (∀ (s : Stmt) (ss : StmtList),
      foldStmtList (.cons s ss) = .cons (foldStmt s) (foldStmtList ss)) ∧
    foldExpr (.asyncE ["cfg"] false (.mk (.cons (.semi (.identE "y")) .nil)))
      = .blockE ["cfg"] none (.mk (.cons (.semi (.identE "y")) .nil)) :=
  ⟨fun _ _ _ => rfl, fun _ => rfl, fun _ _ => rfl, by decide⟩

/-- C3: folding a function or trait-method declaration clears the asynchronous
qualifier unconditionally and recurses into the body (when present); a
declaration already lacking the qualifier is still traversed, so nested
markers are still rewritten — e.g. `fn q() { let s = get().await; }` still has
its await removed. -/
theorem claim_signature_clear :
    (∀ i : ItemFn, foldItemFn i =
      { i with sig := { i.sig with asyncness := false }, body := foldBlock i.body }) ∧
    (∀ m : TraitItemMethod, foldTraitItemMethod m =
      { m with sig := { m.sig with asyncness := false }, body := m.body.map foldBlock }) ∧
    foldTraitItemMethod ⟨[], ⟨true, "m0", [], some "String"⟩, none⟩
      = ⟨[], ⟨false, "m0", [], some "String"⟩, none⟩ ∧
    foldItemFn qFn = qFolded :=
  ⟨fun _ => rfl, fun _ => rfl, rfl, by decide⟩

/-- C4: the dispatch wrapper tries `ItemFn` first, then `TraitItemMethod`,
and on failure of both returns the fixed diagnostic tokens; exactly one of the
three outcomes is produced, with no other failure (a struct declaration yields
the diagnostic). -/
theorem claim_dispatch :
    (∀ input : List Atom,
      (∃ f, parseItemFn input = some f ∧
        remove_async_await input = renderItemFn (foldItemFn f)) ∨
      (parseItemFn input = none ∧ ∃ m, parseTraitItemMethod input = some m ∧
        remove_async_await input = renderTraitItemMethod (foldTraitItemMethod m)) ∨
      (parseItemFn input = none ∧ parseTraitItemMethod input = none ∧
        remove_async_await input = diagnosticTokens)) ∧
    remove_async_await structTokens = diagnosticTokens := by
  constructor
  · intro input
    cases hf : parseItemFn input with
    | some f => exact Or.inl ⟨f, rfl, by unfold remove_async_await; rw [hf]⟩
    | none =>
      cases hm : parseTraitItemMethod input with
      | some m =>
        exact Or.inr (Or.inl ⟨rfl, m, rfl, by unfold remove_async_await; rw [hf, hm]⟩)
      | none =>
        exact Or.inr (Or.inr ⟨rfl, rfl, by unfold remove_async_await; rw [hf, hm]⟩)
  · rfl

/-- C5: on a declaration containing no await expression and no async block,
folding changes nothing but the asynchronous qualifier of the signature. -/
theorem claim_frame :
    (∀ i : ItemFn, noMarkersItemFn i = true →
      foldItemFn i = { i with sig := { i.sig with asyncness := false } }) ∧
    (∀ m : TraitItemMethod, noMarkersTraitItemMethod m = true →
      foldTraitItemMethod m = { m with sig := { m.sig with asyncness := false } }) := by
  constructor
  · intro i h
    unfold foldItemFn
    rw [foldBlock_id i.body h]
  · intro m h
    unfold foldTraitItemMethod
    unfold noMarkersTraitItemMethod at h
    cases hb : m.body with
    | none => rfl
    | some b =>
      rw [hb] at h
      have h' : noMarkersBlock b = true := by simpa using h
      simp [foldBlock_id b h']

/-- Witness for C5 at a concrete marker-free declaration. -/
theorem claim_frame_witness :
    noMarkersItemFn plainFn = true ∧
      foldItemFn plainFn = { plainFn with
        sig := { plainFn.sig with asyncness := false } } :=
  ⟨by decide, claim_frame.1 plainFn (by decide)⟩

/-- C6: folding is idempotent: a folded declaration has no asynchronous
qualifier and no await/async-block markers left, so a second fold is the
identity on it. -/
theorem claim_idempotent :
    (∀ i : ItemFn, foldItemFn (foldItemFn i) = foldItemFn i ∧
      (foldItemFn i).sig.asyncness = false ∧ noMarkersItemFn (foldItemFn i) = true) ∧
    (∀ m : TraitItemMethod,
      foldTraitItemMethod (foldTraitItemMethod m) = foldTraitItemMethod m ∧
      (foldTraitItemMethod m).sig.asyncness = false ∧
      noMarkersTraitItemMethod (foldTraitItemMethod m) = true) := by
  constructor
  · intro i
    refine ⟨?_, rfl, noMarkers_foldBlock i.body⟩
    unfold foldItemFn
    simp [foldBlock_id _ (noMarkers_foldBlock i.body)]
  · intro m
    refine ⟨?_, rfl, ?_⟩
    · unfold foldTraitItemMethod
      cases hb : m.body with
      | none => simp
      | some b => simp [foldBlock_id _ (noMarkers_foldBlock b)]
    · unfold foldTraitItemMethod noMarkersTraitItemMethod
      cases hb : m.body with
      | none => rfl
      | some b => simpa using noMarkers_foldBlock b

/-- C7: the string fallback renders the input tokens to text, removes every
occurrence of the `async` substring, then every occurrence of the `.await`
substring, and re-parses; a failed re-parse is fatal (`none`, the `unwrap`
panic) rather than recovered, and a marker-free input of valid tokens passes
through unchanged. -/
theorem claim_string_fallback :
    ∀ input : List Atom,
      remove_async_await_string input
        = tokenize (removeAll awaitMarker (removeAll asyncMarker (joinAtoms input))) ∧
      (tokenize (removeAll awaitMarker (removeAll asyncMarker (joinAtoms input))) = none →
        remove_async_await_string input = none) ∧
      ((∀ a ∈ input, cleanAtom a = true) → remove_async_await_string input = some input) := by
  intro input
  refine ⟨rfl, fun h => h, fun hcl => ?_⟩
  have hgood : goodAtoms input := goodAtoms_of_all_clean (List.all_eq_true.mpr hcl)
  rw [fallback_output_of_good hgood]
  congr 1
  refine List.filter_eq_self.mpr ?_
  intro a ha
  exact keepAtom_of_cleanAtom (hcl a ha)

/-- Witness for C7: a marker-free declaration's tokens pass through the
fallback unchanged. -/
theorem claim_string_fallback_witness :
    remove_async_await_string [fnA, "f".data, lparenA, rparenA]
      = some [fnA, "f".data, lparenA, rparenA] :=
  (claim_string_fallback [fnA, "f".data, lparenA, rparenA]).2.2 (by decide)

/-- C8 counterexample: `async fn g() { async move { x }; }` contains the
marker substrings only as actual markers, yet the fallback output differs
from the structural output — the fold drops the `move` capture token, the
textual substitution keeps it. -/
theorem claim_fallback_counterexample :
    cleanItemFn false exMove = true ∧
    remove_async_await_string (renderItemFn exMove)
      ≠ some (renderItemFn (foldItemFn exMove)) :=
  ⟨by decide, by decide⟩

/-- C8 (amended): for a supported declaration whose text contains the marker
substrings only as actual markers (also nowhere inside macro-invocation
arguments), whose async blocks carry no `move` capture and whose await
expressions carry no attributes, the fallback output is token-equivalent to
the structural folder output; and on the declaration
`fn f() { my_async_value; }` the fallback output is corrupted and differs
from the structural output. -/
theorem claim_fallback_amended :
    (∀ f : ItemFn, cleanItemFn true f = true →
      remove_async_await_string (renderItemFn f)
        = some (renderItemFn (foldItemFn f))) ∧
    remove_async_await_string (renderItemFn exMy)
      ≠ some (renderItemFn (foldItemFn exMy)) :=
  ⟨fun _ h => fallback_eq_structural h, by decide⟩

/-- Witness for C8 at the concrete clean declaration `pFn`. -/
theorem claim_fallback_amended_witness :
    remove_async_await_string (renderItemFn pFn)
      = some (renderItemFn (foldItemFn pFn)) :=
  claim_fallback_amended.1 pFn (by decide)

/-- C9: the structural fold leaves a macro invocation's argument tokens
unchanged: marker tokens inside unexpanded macro arguments are not rewritten. -/
theorem claim_macro_opaque :
    (∀ (n : String) (toks : List Atom), foldExpr (.macE n toks) = .macE n toks) ∧
    foldExpr (.macE "println"
        ["get_string".data, lparenA, rparenA, awaitMarker, asyncMarker])
      = .macE "println"
        ["get_string".data, lparenA, rparenA, awaitMarker, asyncMarker] :=
  ⟨fun _ _ => rfl, rfl⟩

/-- C10: attributes attached to an await expression itself are discarded by
the fold: the result is exactly the fold of the operand, independent of the
await node's attribute list. -/
theorem claim_await_attrs :
    (∀ (attrs : List String) (base : Expr),
      foldExpr (.awaitE attrs base) = foldExpr base) ∧
    foldExpr (.awaitE ["cfg_attr"] (.identE "x")) = .identE "x" :=
  ⟨fun _ _ => rfl, rfl⟩
